import Mathlib

/-!
Shallow embedding of the text-matching and scoring engine of
`chatbot_sentiment_kb.py` (a rule-based chatbot): normalization,
tokenization, lexicon-based sentiment/emotion scoring, regex-based intent
classification and fuzzy knowledge-base matching.

Strings are modelled as `List Char`; Python's `re` module is modelled only
at the pattern shapes actually used by the program (the `[^\w\s]` and `\s+`
character-class substitutions of `normalize`, and the literal / `\b`-bounded
literal intent patterns); `difflib.get_close_matches` is modelled from the
CPython implementation of `SequenceMatcher` (no junk; `autojunk` has no
effect on the short strings involved).  Python floats are modelled as exact
rationals, `random.choice` as an explicit index argument, and a raised
exception (`KeyError`) as `Option.none`.
-/

namespace Chatbot

/-- Python `\s` (ASCII whitespace as used by `str.split`, `str.strip` and
the `\s` class on ASCII text). -/
def isSpaceChar (c : Char) : Bool :=
  c = ' ' || c = '\t' || c = '\n' || c = '\r' || c = '\x0b' || c = '\x0c'

/-- Python `\w` on ASCII text: letters, digits and underscore. -/
def isWordChar (c : Char) : Bool :=
  c.isAlphanum || c = '_'

/-- `text.lower()` (ASCII). -/
def pyLower (s : List Char) : List Char :=
  s.map Char.toLower

/-- `re.sub(r"[^\w\s]", " ", text)`: every character that is neither a word
character nor whitespace becomes a single space. -/
def subNonWord (s : List Char) : List Char :=
  s.map fun c => if isWordChar c || isSpaceChar c then c else ' '

/-- One step of the `\s+ → " "` substitution, consuming characters from the
right: a whitespace character merges into a following space, otherwise it
becomes one space. -/
def collapseStep (c : Char) (acc : List Char) : List Char :=
  if isSpaceChar c then
    if acc.head? = some ' ' then acc else ' ' :: acc
  else c :: acc

/-- `re.sub(r"\s+", " ", text)`: every maximal run of whitespace becomes a
single space. -/
def collapseSpaces (s : List Char) : List Char :=
  s.foldr collapseStep []

/-- `text.strip()`: drop whitespace from both ends. -/
def stripChars (s : List Char) : List Char :=
  ((s.dropWhile isSpaceChar).reverse.dropWhile isSpaceChar).reverse

/-- `normalize`: lowercase, replace punctuation by spaces, collapse
whitespace runs, strip. -/
def normalize (s : List Char) : List Char :=
  stripChars (collapseSpaces (subNonWord (pyLower s)))

/-- One step of `str.split()`, consuming characters from the right: a
whitespace character opens a new (possibly empty) group, a non-whitespace
character extends the current group. -/
def splitStep (c : Char) (acc : List (List Char)) : List (List Char) :=
  if isSpaceChar c then [] :: acc
  else
    match acc with
    | [] => [[c]]
    | w :: ws => (c :: w) :: ws

/-- Python `str.split()` with no arguments: maximal runs of non-whitespace
characters, empties discarded. -/
def splitWs (s : List Char) : List (List Char) :=
  (s.foldr splitStep []).filter (· ≠ [])

/-- `tokenize`: `normalize(text).split()`. -/
def tokenize (s : List Char) : List (List Char) :=
  splitWs (normalize s)

/-- `POS_WORDS` (a Python set literal; duplicates would collapse, membership
is what matters). -/
def POS_WORDS : List (List Char) :=
  ["good".toList, "great".toList, "awesome".toList, "fantastic".toList, "love".toList,
   "liked".toList, "happy".toList, "nice".toList, "excellent".toList, "amazing".toList,
   "wonderful".toList, "best".toList, "positive".toList, "pleased".toList, "enjoy".toList,
   "enjoyed".toList, "yay".toList, "yay!".toList]

/-- `NEG_WORDS` (the source literal lists "angry" twice; as a set this
collapses, and list membership is unaffected). -/
def NEG_WORDS : List (List Char) :=
  ["bad".toList, "terrible".toList, "awful".toList, "hate".toList, "hated".toList,
   "sad".toList, "angry".toList, "upset".toList, "worst".toList, "poor".toList,
   "negative".toList, "disappointed".toList, "disappointing".toList, "angry".toList,
   "ugh".toList, "sucks".toList]

/-- Result record of `detect_sentiment`. -/
structure SentimentResult where
  polarity : String
  score : Int
  pos : Nat
  neg : Nat
deriving DecidableEq

/-- `detect_sentiment`: token counts against the lexicons, with
multiplicity; score is their difference; polarity is the sign. -/
def detect_sentiment (text : List Char) : SentimentResult :=
  let tokens := tokenize text
  let pos_count := tokens.countP (fun t => t ∈ POS_WORDS)
  let neg_count := tokens.countP (fun t => t ∈ NEG_WORDS)
  let score : Int := (pos_count : Int) - (neg_count : Int)
  let polarity := if 0 < score then "positive" else if score < 0 then "negative" else "neutral"
  ⟨polarity, score, pos_count, neg_count⟩

/-- `EMOTION_KEYWORDS`, in declaration order (Python dicts preserve
insertion order). -/
def EMOTION_KEYWORDS : List (String × List (List Char)) :=
  [("joy", ["happy".toList, "joy".toList, "delighted".toList, "excited".toList,
            "glad".toList, "pleased".toList, "yay".toList, "awesome".toList]),
   ("sadness", ["sad".toList, "unhappy".toList, "down".toList, "depressed".toList,
                "blue".toList, "sorrow".toList, "mourn".toList]),
   ("anger", ["angry".toList, "mad".toList, "furious".toList, "irate".toList,
              "annoyed".toList, "hate".toList, "hated".toList]),
   ("fear", ["scared".toList, "afraid".toList, "fear".toList, "terrified".toList,
             "panic".toList, "anxious".toList]),
   ("surprise", ["surprised".toList, "wow".toList, "shocked".toList, "amazed".toList]),
   ("love", ["love".toList, "loving".toList, "adore".toList, "cherish".toList])]

/-- `detect_emotions`: the set of distinct tokens intersected with each
emotion's trigger set; an emotion is recorded (in table order) exactly when
the intersection is non-empty. -/
def detect_emotions (text : List Char) : List (String × Nat) :=
  let tokens := (tokenize text).dedup
  EMOTION_KEYWORDS.filterMap fun ek =>
    let n := (tokens.filter (fun t => t ∈ ek.2)).length
    if n ≠ 0 then some (ek.1, n) else none

/-- The regex patterns of `INTENTS` take only two shapes: a literal wrapped
in word boundaries (`\b...\b`) or a bare literal; `bounded` records which. -/
structure Pattern where
  body : List Char
  bounded : Bool
deriving DecidableEq

/-- An intent rule: ordered regex patterns plus response templates. -/
structure IntentRule where
  patterns : List Pattern
  responses : List String
deriving DecidableEq

/-- `INTENTS`, in declaration order. -/
def INTENTS : List (String × IntentRule) :=
  [("greeting",
    ⟨[⟨"hello".toList, true⟩, ⟨"hi".toList, true⟩, ⟨"hey".toList, true⟩,
      ⟨"good morning".toList, true⟩, ⟨"good evening".toList, true⟩],
     ["Hello! How can I help you today?", "Hi there — what can I do for you?",
      "Hey! Ask me anything."]⟩),
   ("goodbye",
    ⟨[⟨"bye".toList, true⟩, ⟨"goodbye".toList, true⟩, ⟨"see you".toList, true⟩,
      ⟨"exit".toList, true⟩, ⟨"quit".toList, true⟩],
     ["Goodbye! Take care.", "See you later!", "It was nice talking to you."]⟩),
   ("thanks",
    ⟨[⟨"thanks".toList, true⟩, ⟨"thank you".toList, true⟩, ⟨"thx".toList, true⟩],
     ["You're welcome!", "No problem — happy to help.", "Anytime!"]⟩),
   ("how_are_you",
    ⟨[⟨"how are you".toList, false⟩, ⟨"how's it going".toList, false⟩,
      ⟨"how are things".toList, false⟩],
     ["I'm a bot, but I'm running smoothly!", "All good here — ready to help you."]⟩),
   ("help",
    ⟨[⟨"help".toList, true⟩, ⟨"assist".toList, true⟩, ⟨"support".toList, true⟩,
      ⟨"what can you do".toList, false⟩],
     ["I can answer common questions, detect basic sentiment in your text, and fetch answers from a small knowledge base.",
      "Try asking me about the project tasks (image resizer, Flask app, data analysis), or say how you're feeling."]⟩)]

/-- The literal `body` occurs in `text` starting at position `i`. -/
def occursAt (body text : List Char) (i : Nat) : Bool :=
  (text.drop i).take body.length == body

/-- `\b` on both sides of a word-char-delimited literal of length `len`
placed at position `i`: the character before (after) the occurrence, when
it exists, is not a word character. -/
def boundaryOk (text : List Char) (i len : Nat) : Bool :=
  (i == 0 || !isWordChar (text.getD (i - 1) ' ')) &&
  (decide (text.length ≤ i + len) || !isWordChar (text.getD (i + len) ' '))

/-- `re.search(patt, text)` for the two pattern shapes used by `INTENTS`:
the literal occurs somewhere, with word boundaries when `bounded`. -/
def patMatch (p : Pattern) (t : List Char) : Bool :=
  (List.range (t.length + 1)).any fun i =>
    occursAt p.body t i && (!p.bounded || boundaryOk t i p.body.length)

/-- `match_intent`: lowercase the raw text, then first rule (in declared
order) any of whose patterns matches. -/
def match_intent (user_input : List Char) : Option String :=
  let text := pyLower user_input
  (INTENTS.find? fun r => r.2.patterns.any (fun p => patMatch p text)).map Prod.fst

/-- `intent_response`: `random.choice(INTENTS[intent_key]["responses"])`.
The random draw is modelled by the explicit index `pick` (reduced modulo
the list length, so every `pick` denotes a valid draw); the `KeyError`
raised on an unregistered key is modelled by `none`. -/
def intent_response (intent_key : String) (pick : Nat) : Option String :=
  (INTENTS.lookup intent_key).map fun rule =>
    rule.responses.getD (pick % rule.responses.length) ""

/-- A knowledge-base record (both fields present, per the loader). -/
structure KBEntry where
  question : List Char
  answer : List Char
deriving DecidableEq

/-- Length of the longest common prefix of two strings. -/
def commonPrefixLen : List Char → List Char → Nat
  | a :: as, b :: bs => if a = b then commonPrefixLen as bs + 1 else 0
  | _, _ => 0

/-- `SequenceMatcher.find_longest_match` over full strings (no junk): the
longest matching block `(i, j, k)` — `a[i:i+k] == b[j:j+k]`, `k` maximal —
with ties broken towards the smallest `i`, then the smallest `j`. -/
def findLongestMatch (a b : List Char) : Nat × Nat × Nat :=
  (List.range a.length).foldl
    (fun best i =>
      (List.range b.length).foldl
        (fun best j =>
          let k := commonPrefixLen (a.drop i) (b.drop j)
          if best.2.2 < k then (i, j, k) else best)
        best)
    (0, 0, 0)

/-- Total size of `SequenceMatcher.get_matching_blocks`: recursive split at
the longest matching block.  `fuel` only bounds the recursion depth;
`a.length + b.length` always suffices (each recursive call strictly
shrinks the combined length). -/
def matchTotalAux : Nat → List Char → List Char → Nat
  | 0, _, _ => 0
  | fuel + 1, a, b =>
    let ijk := findLongestMatch a b
    let i := ijk.1
    let j := ijk.2.1
    let k := ijk.2.2
    if k = 0 then 0
    else
      matchTotalAux fuel (a.take i) (b.take j) + k +
        matchTotalAux fuel (a.drop (i + k)) (b.drop (j + k))

/-- Total number of matched characters between `a` and `b`. -/
def matchTotal (a b : List Char) : Nat :=
  matchTotalAux (a.length + b.length) a b

/-- `SequenceMatcher.ratio()` as an exact rational: `2*M/T`, and `1.0`
when both strings are empty (`Rat.divInt` is exact integer division into
`ℚ`, equal to `(2*M : ℚ) / T`; it is used because it evaluates by kernel
reduction). -/
def simRatio (a b : List Char) : ℚ :=
  if a.length + b.length = 0 then 1
  else Rat.divInt (2 * (matchTotal a b : Int)) ((a.length : Int) + (b.length : Int))

/-- Python string `<`: lexicographic comparison by code point. -/
def strLtb : List Char → List Char → Bool
  | _, [] => false
  | [], _ :: _ => true
  | a :: as, b :: bs => if a = b then strLtb as bs else decide (a < b)

/-- Python `<` on the `(ratio, string)` pairs that `get_close_matches`
feeds to `heapq.nlargest`. -/
def candLt (p q : ℚ × List Char) : Bool :=
  decide (p.1 < q.1) || (decide (p.1 = q.1) && strLtb p.2 q.2)

/-- `heapq.nlargest(1, ·)`: the greatest pair in Python tuple order (the
first such pair; pairs comparing equal are identical anyway). -/
def maxCand : List (ℚ × List Char) → Option (ℚ × List Char)
  | [] => none
  | c :: cs => some (cs.foldl (fun best x => if candLt best x then x else best) c)

/-- `difflib.get_close_matches(word, possibilities, n=1, cutoff=0.7)`:
keep the possibilities whose ratio to `word` reaches the cutoff, then take
the largest `(ratio, possibility)` pair. -/
def getCloseMatches1 (word : List Char) (possibilities : List (List Char)) :
    Option (List Char) :=
  (maxCand ((possibilities.filter fun x => decide (Rat.divInt 7 10 ≤ simRatio x word)).map
    fun x => (simRatio x word, x))).map Prod.snd

/-- Descending order on `(overlap, idx)` pairs: what
`overlap_scores.sort(reverse=True)` sorts by (Python tuple order,
reversed). -/
def PairGe (p q : Nat × Nat) : Prop :=
  q.1 < p.1 ∨ (p.1 = q.1 ∧ q.2 ≤ p.2)

instance : DecidableRel PairGe := fun p q => by
  unfold PairGe; infer_instance

/-- The stage-2 fallback of `find_in_kb`: fuzzy-match the whole normalized
query against the normalized questions, answer of the first record whose
normalized question equals the match. -/
def difflibFallback (user_norm : List Char) (questions : List (List Char))
    (kb_data : List KBEntry) : Option (List Char) :=
  match getCloseMatches1 user_norm questions with
  | some matched_q => some ((kb_data.getD (questions.indexOf matched_q) ⟨[], []⟩).answer)
  | none => none

/-- `find_in_kb` with the stage-2 fallback abstracted, to express that a
stage-1 success never consults stage 2.  Stage 1: rank records by distinct
token overlap with the query (descending, ties towards the larger index,
exactly as `sort(reverse=True)` on `(overlap, idx)` pairs does), and when
the best overlap is positive and `overlap / max(1, |question tokens|)`
reaches `cutoff`, answer from that record. -/
def find_in_kb_gen
    (fallback : List Char → List (List Char) → List KBEntry → Option (List Char))
    (user_input : List Char) (kb_data : List KBEntry) (cutoff : ℚ) :
    Option (List Char) :=
  match kb_data with
  | [] => none
  | _ :: _ =>
    let user_norm := normalize user_input
    let questions := kb_data.map fun e => normalize e.question
    let user_tokens := (splitWs user_norm).dedup
    let overlap_scores := questions.enum.map fun p =>
      (((splitWs p.2).dedup.filter (fun t => t ∈ user_tokens)).length, p.1)
    let sorted := List.insertionSort PairGe overlap_scores
    let best := sorted.headD (0, 0)
    let best_overlap := best.1
    let best_idx := best.2
    let q_len := (splitWs (questions.getD best_idx [])).dedup.length
    if 0 < best_overlap ∧ cutoff ≤ Rat.divInt (best_overlap : Int) ((max 1 q_len : ℕ) : Int) then
      some ((kb_data.getD best_idx ⟨[], []⟩).answer)
    else
      fallback user_norm questions kb_data

/-- `find_in_kb(user_input, kb_data, cutoff=0.6)`. -/
def find_in_kb (user_input : List Char) (kb_data : List KBEntry) (cutoff : ℚ) :
    Option (List Char) :=
  find_in_kb_gen difflibFallback user_input kb_data cutoff

/-- Spec-side relation: two adjacent characters are not both spaces (used to
state "single spaces" in the normalization property). -/
def NotBothSpaces (a b : Char) : Prop :=
  ¬(a = ' ' ∧ b = ' ')

/-- Spec-side: the distinct-token overlap of a normalized question with the
normalized query, as `find_in_kb` scores it. -/
def overlapWith (user_norm q : List Char) : Nat :=
  ((splitWs q).dedup.filter (fun t => t ∈ (splitWs user_norm).dedup)).length

/-- Spec-side: the `(overlap, idx)` pair list that `find_in_kb` builds. -/
def overlapScores (user_norm : List Char) (questions : List (List Char)) :
    List (Nat × Nat) :=
  questions.enum.map fun p => (overlapWith user_norm p.2, p.1)

/-- Spec-side: the `(overlap, idx)` pair `find_in_kb` selects in stage 1
(head of the reverse-sorted score list). -/
def stage1Best (user_norm : List Char) (questions : List (List Char)) : Nat × Nat :=
  (List.insertionSort PairGe (overlapScores user_norm questions)).headD (0, 0)

/-- Spec-side: the `overlap / max(1, |question tokens|)` ratio `find_in_kb`
tests against the cutoff in stage 1. -/
def stage1Ratio (user_norm : List Char) (questions : List (List Char)) : ℚ :=
  Rat.divInt ((stage1Best user_norm questions).1 : Int)
    ((max 1 ((splitWs (questions.getD (stage1Best user_norm questions).2 [])).dedup.length) : ℕ) : Int)

instance : IsTotal (Nat × Nat) PairGe :=
  ⟨fun p q => by unfold PairGe; omega⟩

instance : IsTrans (Nat × Nat) PairGe :=
  ⟨fun p q r hpq hqr => by unfold PairGe at *; omega⟩

instance : IsRefl (Nat × Nat) PairGe :=
  ⟨fun p => by unfold PairGe; omega⟩

/- ------------------------------------------------------------------ -/
/- Character-level lemmas. -/

lemma isUpper_iff {c : Char} : c.isUpper = true ↔ 65 ≤ c.toNat ∧ c.toNat ≤ 90 := by
  simp [Char.isUpper, UInt32.le_def, BitVec.le_def, Char.toNat]
  rfl

lemma isUpper_toLower (c : Char) : (Char.toLower c).isUpper = false := by
  by_cases h : 65 ≤ c.toNat ∧ c.toNat ≤ 90
  · have h1 : Char.toLower c = Char.ofNat (c.toNat + 32) := by
      unfold Char.toLower
      simp [h.1, h.2]
    rw [h1]
    have h97 : 97 ≤ c.toNat + 32 := by omega
    have h122 : c.toNat + 32 ≤ 122 := by omega
    generalize hm : c.toNat + 32 = m at *
    interval_cases m <;> decide
  · have h1 : Char.toLower c = c := by
      unfold Char.toLower
      simp only []
      rw [if_neg]
      omega
    rw [h1, Bool.eq_false_iff]
    intro hu
    exact h (isUpper_iff.mp hu)

lemma toLower_eq_self {c : Char} (h : c.isUpper = false) : Char.toLower c = c := by
  unfold Char.toLower
  simp only []
  rw [if_neg]
  intro hc
  rw [isUpper_iff.mpr hc] at h
  simp at h

lemma isSpaceChar_cases {c : Char} (h : isSpaceChar c = true) :
    c = ' ' ∨ c = '\t' ∨ c = '\n' ∨ c = '\r' ∨ c = '\x0b' ∨ c = '\x0c' := by
  simp [isSpaceChar] at h
  tauto

lemma not_isSpaceChar_of_isWordChar {c : Char} (h : isWordChar c = true) :
    isSpaceChar c = false := by
  rw [Bool.eq_false_iff]
  intro hs
  rcases isSpaceChar_cases hs with h' | h' | h' | h' | h' | h' <;>
    rw [h'] at h <;> exact absurd h (by decide)

/- ------------------------------------------------------------------ -/
/- Normalizer invariants. -/

lemma mem_subNonWord_pyLower {s : List Char} {c : Char}
    (h : c ∈ subNonWord (pyLower s)) :
    (isWordChar c = true ∧ c.isUpper = false) ∨ isSpaceChar c = true := by
  rcases List.mem_map.mp h with ⟨d, hd, hcd⟩
  rcases List.mem_map.mp hd with ⟨e, _, hde⟩
  by_cases hw : (isWordChar d || isSpaceChar d) = true
  · rw [if_pos hw] at hcd
    subst hcd
    have hw' : isWordChar d = true ∨ isSpaceChar d = true := by simpa using hw
    rcases hw' with h1 | h1
    · exact Or.inl ⟨h1, hde ▸ isUpper_toLower e⟩
    · exact Or.inr h1
  · rw [if_neg hw] at hcd
    subst hcd
    exact Or.inr (by decide)

lemma collapseSpaces_cons (a : Char) (as : List Char) :
    collapseSpaces (a :: as) = collapseStep a (collapseSpaces as) := rfl

lemma collapseSpaces_mem {s : List Char} {c : Char} (h : c ∈ collapseSpaces s) :
    c = ' ' ∨ (c ∈ s ∧ isSpaceChar c = false) := by
  induction s with
  | nil => simp [collapseSpaces] at h
  | cons a as ih =>
    rw [collapseSpaces_cons] at h
    unfold collapseStep at h
    by_cases hs : isSpaceChar a
    · rw [if_pos hs] at h
      by_cases hh : (collapseSpaces as).head? = some ' '
      · rw [if_pos hh] at h
        rcases ih h with h' | h'
        · exact Or.inl h'
        · exact Or.inr ⟨List.mem_cons_of_mem a h'.1, h'.2⟩
      · rw [if_neg hh] at h
        rcases List.mem_cons.mp h with h' | h'
        · exact Or.inl h'
        · rcases ih h' with h'' | h''
          · exact Or.inl h''
          · exact Or.inr ⟨List.mem_cons_of_mem a h''.1, h''.2⟩
    · rw [if_neg hs] at h
      rcases List.mem_cons.mp h with h' | h'
      · exact Or.inr ⟨h' ▸ List.mem_cons_self a as, h' ▸ Bool.eq_false_iff.mpr hs⟩
      · rcases ih h' with h'' | h''
        · exact Or.inl h''
        · exact Or.inr ⟨List.mem_cons_of_mem a h''.1, h''.2⟩

lemma collapseSpaces_chain (s : List Char) :
    List.Chain' NotBothSpaces (collapseSpaces s) := by
  induction s with
  | nil => simp [collapseSpaces]
  | cons a as ih =>
    rw [collapseSpaces_cons]
    unfold collapseStep
    by_cases hs : isSpaceChar a
    · rw [if_pos hs]
      by_cases hh : (collapseSpaces as).head? = some ' '
      · rw [if_pos hh]
        exact ih
      · rw [if_neg hh]
        refine List.chain'_cons'.mpr ⟨?_, ih⟩
        intro y hy hcon
        exact hh (by rw [← hcon.2]; exact hy)
    · rw [if_neg hs]
      refine List.chain'_cons'.mpr ⟨?_, ih⟩
      intro y _ hcon
      rw [hcon.1] at hs
      exact hs (by decide)

lemma collapseSpaces_eq_self {l : List Char}
    (hsp : ∀ c ∈ l, isSpaceChar c = true → c = ' ')
    (hch : List.Chain' NotBothSpaces l) : collapseSpaces l = l := by
  induction l with
  | nil => rfl
  | cons a as ih =>
    have has : collapseSpaces as = as :=
      ih (fun c hc => hsp c (List.mem_cons_of_mem a hc)) (List.chain'_cons'.mp hch).2
    rw [collapseSpaces_cons, has]
    unfold collapseStep
    by_cases hs : isSpaceChar a
    · rw [if_pos hs]
      have ha : a = ' ' := hsp a (List.mem_cons_self a as) hs
      have hh : as.head? ≠ some ' ' := by
        intro hh'
        exact (List.chain'_cons'.mp hch).1 ' ' hh' ⟨ha, rfl⟩
      rw [if_neg hh, ha]
    · rw [if_neg hs]

lemma head?_dropWhile_not {α : Type} (p : α → Bool) (l : List α) {x : α}
    (h : (l.dropWhile p).head? = some x) : p x = false := by
  induction l with
  | nil => simp [List.dropWhile] at h
  | cons a as ih =>
    rw [List.dropWhile_cons] at h
    by_cases hp : p a
    · rw [if_pos hp] at h
      exact ih h
    · rw [if_neg hp] at h
      simp at h
      exact h ▸ Bool.eq_false_iff.mpr hp

lemma dropWhile_eq_self_of_head {α : Type} {p : α → Bool} {l : List α}
    (h : ∀ x, l.head? = some x → p x = false) : l.dropWhile p = l := by
  cases l with
  | nil => rfl
  | cons a as =>
    rw [List.dropWhile_cons, if_neg]
    simp [h a rfl]

lemma stripChars_append (l : List Char) :
    ∃ t, l.dropWhile isSpaceChar = stripChars l ++ t := by
  obtain ⟨w, hw⟩ := (List.dropWhile_suffix isSpaceChar : _ <:+ (l.dropWhile isSpaceChar).reverse)
  refine ⟨w.reverse, ?_⟩
  have := congrArg List.reverse hw
  rw [List.reverse_append, List.reverse_reverse] at this
  exact this.symm

lemma stripChars_subset {l : List Char} {c : Char} (h : c ∈ stripChars l) : c ∈ l := by
  obtain ⟨t, ht⟩ := stripChars_append l
  have h1 : c ∈ l.dropWhile isSpaceChar := by
    rw [ht]
    exact List.mem_append_left t h
  exact (List.dropWhile_suffix isSpaceChar).subset h1

lemma stripChars_chain {l : List Char} (h : List.Chain' NotBothSpaces l) :
    List.Chain' NotBothSpaces (stripChars l) := by
  have h1 : List.Chain' NotBothSpaces (l.dropWhile isSpaceChar) :=
    List.Chain'.suffix h (List.dropWhile_suffix isSpaceChar)
  have h2 : List.Chain' (flip NotBothSpaces) (l.dropWhile isSpaceChar).reverse := by
    rw [List.chain'_reverse]
    exact h1.imp fun a b hab => hab
  have h3 : List.Chain' (flip NotBothSpaces)
      ((l.dropWhile isSpaceChar).reverse.dropWhile isSpaceChar) :=
    List.Chain'.suffix h2 (List.dropWhile_suffix isSpaceChar)
  show List.Chain' NotBothSpaces
    ((l.dropWhile isSpaceChar).reverse.dropWhile isSpaceChar).reverse
  rw [List.chain'_reverse]
  exact h3.imp fun a b hab => hab

lemma stripChars_head {l : List Char} {x : Char}
    (h : (stripChars l).head? = some x) : isSpaceChar x = false := by
  obtain ⟨t, ht⟩ := stripChars_append l
  have h1 : (l.dropWhile isSpaceChar).head? = some x := by
    rw [ht]
    cases hs : stripChars l with
    | nil => rw [hs] at h; simp at h
    | cons b bs =>
      rw [hs] at h
      simp at h
      simp [h]
  exact head?_dropWhile_not isSpaceChar l h1

lemma stripChars_getLast {l : List Char} {x : Char}
    (h : (stripChars l).getLast? = some x) : isSpaceChar x = false := by
  unfold stripChars at h
  rw [List.getLast?_reverse] at h
  exact head?_dropWhile_not isSpaceChar _ h

lemma stripChars_eq_self {l : List Char}
    (hh : ∀ x, l.head? = some x → isSpaceChar x = false)
    (hl : ∀ x, l.getLast? = some x → isSpaceChar x = false) : stripChars l = l := by
  unfold stripChars
  rw [dropWhile_eq_self_of_head hh]
  rw [dropWhile_eq_self_of_head (fun x hx => hl x (by rwa [List.head?_reverse] at hx))]
  exact List.reverse_reverse l

lemma normalize_mem {s : List Char} {c : Char} (h : c ∈ normalize s) :
    (isWordChar c = true ∧ c.isUpper = false) ∨ c = ' ' := by
  have h1 : c ∈ collapseSpaces (subNonWord (pyLower s)) := stripChars_subset h
  rcases collapseSpaces_mem h1 with h2 | h2
  · exact Or.inr h2
  · rcases mem_subNonWord_pyLower h2.1 with h3 | h3
    · exact Or.inl h3
    · rw [h2.2] at h3
      simp at h3

lemma normalize_chain (s : List Char) :
    List.Chain' NotBothSpaces (normalize s) :=
  stripChars_chain (collapseSpaces_chain _)

lemma normalize_head {s : List Char} {x : Char}
    (h : (normalize s).head? = some x) : isSpaceChar x = false :=
  stripChars_head h

lemma normalize_getLast {s : List Char} {x : Char}
    (h : (normalize s).getLast? = some x) : isSpaceChar x = false :=
  stripChars_getLast h

lemma normalize_idem (s : List Char) : normalize (normalize s) = normalize s := by
  have hmem : ∀ c ∈ normalize s, (isWordChar c = true ∧ c.isUpper = false) ∨ c = ' ' :=
    fun c hc => normalize_mem hc
  have hup : ∀ c ∈ normalize s, c.isUpper = false := by
    intro c hc
    rcases hmem c hc with h | h
    · exact h.2
    · rw [h]; decide
  have hlower : pyLower (normalize s) = normalize s := by
    unfold pyLower
    have : ∀ c ∈ normalize s, Char.toLower c = c := fun c hc => toLower_eq_self (hup c hc)
    calc (normalize s).map Char.toLower = (normalize s).map id := List.map_congr_left this
      _ = normalize s := List.map_id _
  have hsub : subNonWord (normalize s) = normalize s := by
    unfold subNonWord
    have : ∀ c ∈ normalize s,
        (if isWordChar c || isSpaceChar c then c else ' ') = c := by
      intro c hc
      rcases hmem c hc with h | h
      · simp [h.1]
      · rw [h]; decide
    calc (normalize s).map _ = (normalize s).map id := List.map_congr_left this
      _ = normalize s := List.map_id _
  have hcol : collapseSpaces (normalize s) = normalize s := by
    apply collapseSpaces_eq_self
    · intro c hc hsp
      rcases hmem c hc with h | h
      · rw [not_isSpaceChar_of_isWordChar h.1] at hsp
        simp at hsp
      · exact h
    · exact normalize_chain s
  have hstrip : stripChars (normalize s) = normalize s := by
    apply stripChars_eq_self
    · intro x hx
      exact normalize_head hx
    · intro x hx
      exact normalize_getLast hx
  show stripChars (collapseSpaces (subNonWord (pyLower (normalize s)))) = normalize s
  rw [hlower, hsub, hcol, hstrip]

/-- C7: for every input, `normalize` yields only lowercase word characters
and single separating spaces — no uppercase, no punctuation, no adjacent
double space, no leading or trailing space — and it is idempotent. -/
theorem normalize_wellformed_and_idempotent (s : List Char) :
    (∀ c ∈ normalize s, (isWordChar c = true ∧ c.isUpper = false) ∨ c = ' ') ∧
    List.Chain' NotBothSpaces (normalize s) ∧
    (∀ x, (normalize s).head? = some x → x ≠ ' ') ∧
    (∀ x, (normalize s).getLast? = some x → x ≠ ' ') ∧
    normalize (normalize s) = normalize s := by
  refine ⟨fun c hc => normalize_mem hc, normalize_chain s, ?_, ?_, normalize_idem s⟩
  · intro x hx hx'
    have := normalize_head hx
    rw [hx'] at this
    exact absurd this (by decide)
  · intro x hx hx'
    have := normalize_getLast hx
    rw [hx'] at this
    exact absurd this (by decide)

/- ------------------------------------------------------------------ -/
/- Tokenizer invariants. -/

lemma splitWs_mem_aux :
    ∀ (s : List Char) (w : List Char), w ∈ s.foldr splitStep [] →
      ∀ c ∈ w, c ∈ s ∧ isSpaceChar c = false := by
  intro s
  induction s with
  | nil => intro w hw; simp at hw
  | cons a as ih =>
    intro w hw c hc
    rw [List.foldr_cons] at hw
    cases hf : as.foldr splitStep [] with
    | nil =>
      rw [hf] at hw
      by_cases hs : isSpaceChar a
      · simp [splitStep, hs] at hw
        rw [hw] at hc
        simp at hc
      · simp [splitStep, hs] at hw
        rw [hw] at hc
        rw [List.mem_singleton.mp hc]
        exact ⟨List.mem_cons_self a as, Bool.eq_false_iff.mpr hs⟩
    | cons w0 ws =>
      rw [hf] at hw
      by_cases hs : isSpaceChar a
      · simp only [splitStep, hs, if_pos] at hw
        rcases List.mem_cons.mp hw with h' | h'
        · rw [h'] at hc; simp at hc
        · have := ih w (by rw [hf]; exact h') c hc
          exact ⟨List.mem_cons_of_mem a this.1, this.2⟩
      · simp only [splitStep, hs, Bool.false_eq_true, if_false, if_neg] at hw
        rcases List.mem_cons.mp hw with h' | h'
        · rw [h'] at hc
          rcases List.mem_cons.mp hc with hca | hcw
          · rw [hca]
            exact ⟨List.mem_cons_self a as, Bool.eq_false_iff.mpr hs⟩
          · have := ih w0 (by rw [hf]; exact List.mem_cons_self w0 ws) c hcw
            exact ⟨List.mem_cons_of_mem a this.1, this.2⟩
        · have := ih w (by rw [hf]; exact List.mem_cons_of_mem w0 h') c hc
          exact ⟨List.mem_cons_of_mem a this.1, this.2⟩

lemma splitWs_mem {s w : List Char} (h : w ∈ splitWs s) :
    w ≠ [] ∧ ∀ c ∈ w, c ∈ s ∧ isSpaceChar c = false := by
  unfold splitWs at h
  have h1 := List.mem_filter.mp h
  refine ⟨by simpa using h1.2, fun c hc => splitWs_mem_aux s w h1.1 c hc⟩

lemma tokenize_word_chars {s w : List Char} (hw : w ∈ tokenize s) :
    ∀ c ∈ w, isWordChar c = true := by
  intro c hc
  have h1 := (splitWs_mem hw).2 c hc
  rcases normalize_mem h1.1 with h2 | h2
  · exact h2.1
  · rw [h2] at h1
    exact absurd h1.2 (by decide)

/-- C10: every token consists of word characters only, so no token can
equal the punctuation-bearing lexicon entry "yay!", and dropping "yay!"
from the positive lexicon never changes the positive count. -/
theorem tokenize_tokens_word_chars_yay_dead (s : List Char) :
    (∀ w ∈ tokenize s, ∀ c ∈ w, isWordChar c = true) ∧
    (∀ w ∈ tokenize s, w ≠ "yay!".toList) ∧
    (tokenize s).countP (fun t => t ∈ POS_WORDS) =
      (tokenize s).countP (fun t => t ∈ POS_WORDS.erase ("yay!".toList)) := by
  have hword : ∀ w ∈ tokenize s, ∀ c ∈ w, isWordChar c = true :=
    fun w hw => tokenize_word_chars hw
  have hyay : ∀ w ∈ tokenize s, w ≠ "yay!".toList := by
    intro w hw hcon
    have h1 : isWordChar '!' = true := by
      apply hword w hw
      rw [hcon]
      decide
    exact absurd h1 (by decide)
  refine ⟨hword, hyay, ?_⟩
  apply List.countP_congr
  intro w hw
  have hne : w ≠ "yay!".toList := hyay w hw
  simp only [decide_eq_true_eq]
  exact (List.mem_erase_of_ne hne).symm

/-- C5: `detect_sentiment` counts lexicon hits over the token sequence with
multiplicity, its score is positive count minus negative count, polarity is
exactly the sign of the score, and on "good good bad" it yields
pos=2, neg=1, score=1, polarity "positive". -/
theorem detect_sentiment_spec (text : List Char) :
    (detect_sentiment text).pos = (tokenize text).countP (fun t => t ∈ POS_WORDS) ∧
    (detect_sentiment text).neg = (tokenize text).countP (fun t => t ∈ NEG_WORDS) ∧
    (detect_sentiment text).score =
      ((detect_sentiment text).pos : Int) - ((detect_sentiment text).neg : Int) ∧
    ((detect_sentiment text).polarity = "positive" ↔ 0 < (detect_sentiment text).score) ∧
    ((detect_sentiment text).polarity = "negative" ↔ (detect_sentiment text).score < 0) ∧
    ((detect_sentiment text).polarity = "neutral" ↔ (detect_sentiment text).score = 0) ∧
    detect_sentiment ("good good bad".toList) = ⟨"positive", 1, 2, 1⟩ := by
  refine ⟨rfl, rfl, rfl, ?_, ?_, ?_, by decide⟩ <;>
    · show (if 0 < (detect_sentiment text).score then "positive"
        else if (detect_sentiment text).score < 0 then "negative" else "neutral") = _ ↔ _
      split_ifs with h1 h2 <;> simp_all <;> omega

/- ------------------------------------------------------------------ -/
/- Emotion detection: lookup in the filtered association list. -/

lemma lookup_filterMap_none {β γ : Type} (g : String × β → Option (String × γ))
    (hg : ∀ p q, g p = some q → q.1 = p.1) {e : String} :
    ∀ (l : List (String × β)), (∀ p ∈ l, p.1 ≠ e) →
      (l.filterMap g).lookup e = none := by
  intro l
  induction l with
  | nil => intro _; rfl
  | cons a l ih =>
    intro hl
    rw [List.filterMap_cons]
    cases hga : g a with
    | none => exact ih fun p hp => hl p (List.mem_cons_of_mem a hp)
    | some q =>
      rw [List.lookup_cons]
      have : (e == q.1) = false := by
        rw [hg a q hga]
        exact beq_false_of_ne fun hcon => hl a (List.mem_cons_self a l) hcon.symm
      rw [this]
      exact ih fun p hp => hl p (List.mem_cons_of_mem a hp)

lemma lookup_filterMap_keyed {β γ : Type} (g : String × β → Option (String × γ))
    (hg : ∀ p q, g p = some q → q.1 = p.1) :
    ∀ (l : List (String × β)), (l.map Prod.fst).Nodup → ∀ e b, (e, b) ∈ l →
      (l.filterMap g).lookup e = (g (e, b)).map Prod.snd := by
  intro l
  induction l with
  | nil => intro _ e b hb; simp at hb
  | cons a l ih =>
    intro hnd e b hb
    have hnd' : (l.map Prod.fst).Nodup := (List.nodup_cons.mp hnd).2
    have hhead : a.1 ∉ l.map Prod.fst := (List.nodup_cons.mp hnd).1
    rw [List.filterMap_cons]
    rcases List.mem_cons.mp hb with hb' | hb'
    · have ha : a = (e, b) := hb'.symm
      subst ha
      cases hga : g (e, b) with
      | none =>
        apply lookup_filterMap_none g hg
        intro p hp hcon
        apply hhead
        show e ∈ List.map Prod.fst l
        rw [← hcon]
        exact List.mem_map_of_mem Prod.fst hp
      | some q =>
        rw [List.lookup_cons]
        have : (e == q.1) = true := by
          rw [hg _ q hga]
          simp
        rw [this]
        rfl
    · have hne : a.1 ≠ e := by
        intro hcon
        exact hhead (hcon ▸ List.mem_map_of_mem Prod.fst hb')
      cases hga : g a with
      | none => exact ih hnd' e b hb'
      | some q =>
        rw [List.lookup_cons]
        have : (e == q.1) = false := by
          rw [hg a q hga]
          exact beq_false_of_ne fun hcon => hne hcon.symm
        rw [this]
        exact ih hnd' e b hb'

/-- C6: `detect_emotions` records an emotion exactly when the set of
distinct tokens meets its trigger set, mapping it to the size of that
intersection; emotions with empty intersection are absent; and on
"happy happy" the duplicate token collapses, giving joy ↦ 1. -/
theorem detect_emotions_spec (text : List Char) :
    (∀ e kws, (e, kws) ∈ EMOTION_KEYWORDS →
      (detect_emotions text).lookup e =
        (if ((tokenize text).dedup.filter (fun t => t ∈ kws)).length ≠ 0
         then some ((tokenize text).dedup.filter (fun t => t ∈ kws)).length
         else none)) ∧
    (∀ e n, (e, n) ∈ detect_emotions text →
      ∃ kws, (e, kws) ∈ EMOTION_KEYWORDS ∧
        n = ((tokenize text).dedup.filter (fun t => t ∈ kws)).length ∧ 0 < n) ∧
    detect_emotions ("happy happy".toList) = [("joy", 1)] := by
  refine ⟨?_, ?_, by decide⟩
  · intro e kws hmem
    have hnd : (EMOTION_KEYWORDS.map Prod.fst).Nodup := by decide
    have := lookup_filterMap_keyed
      (fun ek => if ((tokenize text).dedup.filter (fun t => t ∈ ek.2)).length ≠ 0
        then some (ek.1, ((tokenize text).dedup.filter (fun t => t ∈ ek.2)).length)
        else none)
      (fun p q hq => by
        dsimp only at hq
        by_cases hn : ((tokenize text).dedup.filter (fun t => t ∈ p.2)).length ≠ 0
        · rw [if_pos hn] at hq
          cases hq
          rfl
        · rw [if_neg hn] at hq
          cases hq)
      EMOTION_KEYWORDS hnd e kws hmem
    rw [show detect_emotions text = EMOTION_KEYWORDS.filterMap
      (fun ek => if ((tokenize text).dedup.filter (fun t => t ∈ ek.2)).length ≠ 0
        then some (ek.1, ((tokenize text).dedup.filter (fun t => t ∈ ek.2)).length)
        else none) from rfl]
    rw [this]
    dsimp only
    by_cases hn : ((tokenize text).dedup.filter (fun t => t ∈ kws)).length ≠ 0
    · rw [if_pos hn, if_pos hn]
      rfl
    · rw [if_neg hn, if_neg hn]
      rfl
  · intro e n hmem
    have hmem' := List.mem_filterMap.mp hmem
    rcases hmem' with ⟨ek, hek, hg⟩
    dsimp only at hg
    by_cases hn : ((tokenize text).dedup.filter (fun t => t ∈ ek.2)).length ≠ 0
    · rw [if_pos hn] at hg
      cases hg
      exact ⟨ek.2, hek, rfl, Nat.pos_of_ne_zero hn⟩
    · rw [if_neg hn] at hg
      cases hg

/- ------------------------------------------------------------------ -/
/- Intent classification. -/

/-- C8: `match_intent` works on the lowercased raw text; it returns the
identifier of the first declared rule owning a matching pattern (every
earlier rule having no matching pattern), `none` exactly when no rule's
pattern matches, and on the spec's examples "Hello there" ↦ greeting and
"xyz" ↦ no match. -/
theorem match_intent_first_rule_spec (user : List Char) :
    (∀ i, match_intent user = some i ↔
      ∃ l1 rule l2, INTENTS = l1 ++ (i, rule) :: l2 ∧
        rule.patterns.any (fun p => patMatch p (pyLower user)) = true ∧
        ∀ r ∈ l1, r.2.patterns.any (fun p => patMatch p (pyLower user)) = false) ∧
    (match_intent user = none ↔
      ∀ r ∈ INTENTS, r.2.patterns.any (fun p => patMatch p (pyLower user)) = false) ∧
    match_intent ("Hello there".toList) = some "greeting" ∧
    match_intent ("xyz".toList) = none := by
  refine ⟨?_, ?_, by decide, by decide⟩
  · intro i
    constructor
    · intro h
      unfold match_intent at h
      rcases Option.map_eq_some'.mp h with ⟨⟨i', rule⟩, hfind, hfst⟩
      cases hfst
      rcases List.find?_eq_some.mp hfind with ⟨hp, l1, l2, hsplit, hprev⟩
      refine ⟨l1, rule, l2, hsplit, hp, ?_⟩
      intro r hr
      have := hprev r hr
      simpa using this
    · intro ⟨l1, rule, l2, hsplit, hmatch, hprev⟩
      unfold match_intent
      dsimp only
      have hfind : (INTENTS.find? fun r =>
          r.2.patterns.any (fun p => patMatch p (pyLower user))) = some (i, rule) := by
        apply List.find?_eq_some.mpr
        refine ⟨hmatch, l1, l2, hsplit, ?_⟩
        intro r hr
        simpa using hprev r hr
      rw [hfind]
      rfl
  · constructor
    · intro h r hr
      unfold match_intent at h
      dsimp only at h
      have hfind : (INTENTS.find? fun r =>
          r.2.patterns.any (fun p => patMatch p (pyLower user))) = none := by
        cases hf : INTENTS.find? fun r =>
            r.2.patterns.any (fun p => patMatch p (pyLower user))
        · rfl
        · rw [hf] at h; simp at h
      have := List.find?_eq_none.mp hfind r hr
      simpa using this
    · intro h
      unfold match_intent
      dsimp only
      rw [List.find?_eq_none.mpr fun r hr => by simp [h r hr]]
      rfl

/-- C9: `intent_response` on a registered intent returns one of that
intent's response templates for every random draw, and on an unregistered
identifier it fails (the `KeyError`, modelled as `none`) for every draw. -/
theorem intent_response_spec :
    (∀ k rule, INTENTS.lookup k = some rule →
      ∀ pick, ∃ resp, intent_response k pick = some resp ∧ resp ∈ rule.responses) ∧
    (∀ k, INTENTS.lookup k = none → ∀ pick, intent_response k pick = none) := by
  constructor
  · intro k rule hk pick
    have hmem : (k, rule) ∈ INTENTS := by
      rcases List.lookup_eq_some_iff.mp hk with ⟨l1, l2, hsplit, _⟩
      rw [hsplit]
      exact List.mem_append_right l1 (List.mem_cons_self _ _)
    have hne : rule.responses ≠ [] := by
      have : ∀ p ∈ INTENTS, p.2.responses ≠ [] := by decide
      exact this (k, rule) hmem
    have hlen : 0 < rule.responses.length := List.length_pos.mpr hne
    have hlt : pick % rule.responses.length < rule.responses.length :=
      Nat.mod_lt pick hlen
    refine ⟨rule.responses.getD (pick % rule.responses.length) "", ?_, ?_⟩
    · unfold intent_response
      rw [hk]
      rfl
    · rw [List.getD_eq_getElem _ _ hlt]
      exact List.getElem_mem _
  · intro k hk pick
    unfold intent_response
    rw [hk]
    rfl

/- ------------------------------------------------------------------ -/
/- Knowledge-base matcher: order lemmas for the stage-2 candidate pairs. -/

lemma strLtb_irrefl : ∀ a : List Char, strLtb a a = false := by
  intro a
  induction a with
  | nil => rfl
  | cons c cs ih => simp [strLtb, ih]

lemma strLtb_trans : ∀ {a b c : List Char},
    strLtb a b = true → strLtb b c = true → strLtb a c = true := by
  intro a
  induction a with
  | nil =>
    intro b c h1 h2
    cases b with
    | nil => simp [strLtb] at h1
    | cons y ys =>
      cases c with
      | nil => simp [strLtb] at h2
      | cons z zs => rfl
  | cons x xs ih =>
    intro b c h1 h2
    cases b with
    | nil => simp [strLtb] at h1
    | cons y ys =>
      cases c with
      | nil => simp [strLtb] at h2
      | cons z zs =>
        unfold strLtb at h1 h2 ⊢
        by_cases hxy : x = y
        · rw [if_pos hxy] at h1
          by_cases hyz : y = z
          · rw [if_pos hyz] at h2
            rw [if_pos (hxy.trans hyz)]
            exact ih h1 h2
          · rw [if_neg hyz] at h2
            have hlt : y < z := of_decide_eq_true h2
            have : x < z := hxy ▸ hlt
            rw [if_neg (by intro hc; rw [hc] at this; exact lt_irrefl z this)]
            exact decide_eq_true this
        · rw [if_neg hxy] at h1
          have hxy' : x < y := of_decide_eq_true h1
          by_cases hyz : y = z
          · have : x < z := hyz ▸ hxy'
            rw [if_neg (by intro hc; rw [hc] at this; exact lt_irrefl z this)]
            exact decide_eq_true this
          · rw [if_neg hyz] at h2
            have hyz' : y < z := of_decide_eq_true h2
            have : x < z := lt_trans hxy' hyz'
            rw [if_neg (by intro hc; rw [hc] at this; exact lt_irrefl z this)]
            exact decide_eq_true this

lemma strLtb_conn : ∀ {a b : List Char},
    strLtb a b = false → strLtb b a = false → a = b := by
  intro a
  induction a with
  | nil =>
    intro b h1 _
    cases b with
    | nil => rfl
    | cons y ys => simp [strLtb] at h1
  | cons x xs ih =>
    intro b h1 h2
    cases b with
    | nil => simp [strLtb] at h2
    | cons y ys =>
      unfold strLtb at h1 h2
      by_cases hxy : x = y
      · rw [if_pos hxy] at h1
        rw [if_pos hxy.symm] at h2
        rw [hxy, ih h1 h2]
      · rw [if_neg hxy] at h1
        rw [if_neg (fun hc => hxy hc.symm)] at h2
        have hn1 : ¬x < y := of_decide_eq_false h1
        have hn2 : ¬y < x := of_decide_eq_false h2
        exact absurd (le_antisymm (le_of_not_lt hn2) (le_of_not_lt hn1)) hxy

lemma candLt_irrefl (p : ℚ × List Char) : candLt p p = false := by
  simp [candLt, strLtb_irrefl]

lemma candLt_trans {p q r : ℚ × List Char}
    (h1 : candLt p q = true) (h2 : candLt q r = true) : candLt p r = true := by
  simp only [candLt, Bool.or_eq_true, Bool.and_eq_true, decide_eq_true_eq] at h1 h2 ⊢
  rcases h1 with h1 | ⟨h1e, h1s⟩
  · rcases h2 with h2 | ⟨h2e, h2s⟩
    · exact Or.inl (lt_trans h1 h2)
    · exact Or.inl (h2e ▸ h1)
  · rcases h2 with h2 | ⟨h2e, h2s⟩
    · exact Or.inl (h1e ▸ h2)
    · exact Or.inr ⟨h1e.trans h2e, strLtb_trans h1s h2s⟩

lemma candLt_conn {p q : ℚ × List Char}
    (h1 : candLt p q = false) (h2 : candLt q p = false) : p = q := by
  simp only [candLt, Bool.or_eq_false_iff, Bool.and_eq_false_iff,
    decide_eq_false_iff_not] at h1 h2
  have he : p.1 = q.1 := le_antisymm (le_of_not_lt h2.1) (le_of_not_lt h1.1)
  have hs : p.2 = q.2 := by
    apply strLtb_conn
    · rcases h1.2 with h | h
      · exact absurd he h
      · exact h
    · rcases h2.2 with h | h
      · exact absurd he.symm h
      · exact h
  exact Prod.ext he hs

lemma foldl_maxCand_spec :
    ∀ (l : List (ℚ × List Char)) (b : ℚ × List Char),
      (l.foldl (fun best x => if candLt best x then x else best) b = b ∨
        l.foldl (fun best x => if candLt best x then x else best) b ∈ l) ∧
      ∀ x ∈ b :: l, candLt (l.foldl (fun best x => if candLt best x then x else best) b) x = false := by
  intro l
  induction l with
  | nil =>
    intro b
    refine ⟨Or.inl rfl, ?_⟩
    intro x hx
    rw [List.mem_singleton.mp hx]
    exact candLt_irrefl b
  | cons a l ih =>
    intro b
    rw [List.foldl_cons]
    rcases ih (if candLt b a then a else b) with ⟨ihmem, ihmax⟩
    constructor
    · rcases ihmem with h | h
      · rw [h]
        by_cases hba : candLt b a = true
        · rw [if_pos hba]
          exact Or.inr (List.mem_cons_self a l)
        · rw [if_neg hba]
          exact Or.inl rfl
      · exact Or.inr (List.mem_cons_of_mem a h)
    · intro x hx
      by_cases hba : candLt b a = true
      · rw [if_pos hba] at ihmax ⊢
        rcases List.mem_cons.mp hx with hxb | hx'
        · rw [hxb]
          have hra : candLt _ a = false := ihmax a (List.mem_cons_self a l)
          rw [Bool.eq_false_iff]
          intro hrb
          have := candLt_trans hrb hba
          rw [hra] at this
          simp at this
        · exact ihmax x hx'
      · rw [if_neg hba] at ihmax ⊢
        rcases List.mem_cons.mp hx with hxb | hx'
        · rw [hxb]
          exact ihmax b (List.mem_cons_self b l)
        · rcases List.mem_cons.mp hx' with hxa | hxl
          · rw [hxa]
            have hrb : candLt _ b = false := ihmax b (List.mem_cons_self b l)
            rw [Bool.eq_false_iff]
            intro hra
            by_cases hab : candLt a b = true
            · have := candLt_trans hra hab
              rw [hrb] at this
              simp at this
            · have hxab : a = b :=
                candLt_conn (Bool.eq_false_iff.mpr hab) (Bool.eq_false_iff.mpr hba)
              rw [hxab] at hra
              rw [hrb] at hra
              simp at hra
          · exact ihmax x (List.mem_cons_of_mem b hxl)

lemma maxCand_spec {l : List (ℚ × List Char)} {c : ℚ × List Char}
    (h : maxCand l = some c) : c ∈ l ∧ ∀ x ∈ l, candLt c x = false := by
  cases l with
  | nil => simp [maxCand] at h
  | cons b rest =>
    unfold maxCand at h
    have hc : rest.foldl (fun best x => if candLt best x then x else best) b = c := by
      simpa using h
    rcases foldl_maxCand_spec rest b with ⟨hmem, hmax⟩
    rw [hc] at hmem hmax
    constructor
    · rcases hmem with h' | h'
      · rw [h']
        exact List.mem_cons_self b rest
      · exact List.mem_cons_of_mem b h'
    · exact hmax

lemma indexOf_spec :
    ∀ (l : List (List Char)) (a : List Char), a ∈ l →
      l.getD (l.indexOf a) [] = a ∧ ∀ j < l.indexOf a, l.getD j [] ≠ a := by
  intro l
  induction l with
  | nil => intro a ha; simp at ha
  | cons b l ih =>
    intro a ha
    by_cases hb : b = a
    · have h0 : (b :: l).indexOf a = 0 := by
        simp [List.indexOf_cons, cond_eq_if, beq_iff_eq, hb]
      rw [h0]
      exact ⟨hb, by omega⟩
    · have hmem : a ∈ l := by
        rcases List.mem_cons.mp ha with h' | h'
        · exact absurd h'.symm hb
        · exact h'
      have hstep : (b :: l).indexOf a = l.indexOf a + 1 := by
        simp [List.indexOf_cons, cond_eq_if, beq_iff_eq, hb]
      rcases ih a hmem with ⟨ih1, ih2⟩
      rw [hstep]
      refine ⟨by simpa using ih1, ?_⟩
      intro j hj
      cases j with
      | zero => simpa using hb
      | succ j' =>
        have : j' < l.indexOf a := by omega
        simpa using ih2 j' this

/- ------------------------------------------------------------------ -/
/- Knowledge-base matcher: stage-2 fuzzy matching. -/

lemma getCloseMatches1_none {w : List Char} {qs : List (List Char)}
    (h : ∀ q ∈ qs, ¬(Rat.divInt 7 10 ≤ simRatio q w)) : getCloseMatches1 w qs = none := by
  unfold getCloseMatches1
  have hf : qs.filter (fun x => decide (Rat.divInt 7 10 ≤ simRatio x w)) = [] :=
    List.filter_eq_nil_iff.mpr (fun q hq => by simpa using h q hq)
  rw [hf]
  rfl

lemma getCloseMatches1_some_spec {w q : List Char} {qs : List (List Char)}
    (h : getCloseMatches1 w qs = some q) :
    q ∈ qs ∧ Rat.divInt 7 10 ≤ simRatio q w ∧
      ∀ q' ∈ qs, Rat.divInt 7 10 ≤ simRatio q' w →
        candLt (simRatio q w, q) (simRatio q' w, q') = false := by
  unfold getCloseMatches1 at h
  cases hm : maxCand ((qs.filter fun x => decide (Rat.divInt 7 10 ≤ simRatio x w)).map
      fun x => (simRatio x w, x)) with
  | none => rw [hm] at h; simp at h
  | some c =>
    rw [hm] at h
    simp only [Option.map_some', Option.some.injEq] at h
    rcases maxCand_spec hm with ⟨hcmem, hcmax⟩
    rcases List.mem_map.mp hcmem with ⟨x, hxf, hcx⟩
    rcases List.mem_filter.mp hxf with ⟨hxqs, hxcut⟩
    have hqx : q = x := by rw [← h, ← hcx]
    subst hqx
    refine ⟨hxqs, by simpa using hxcut, ?_⟩
    intro q' hq' hcut'
    have hmem' : (simRatio q' w, q') ∈
        (qs.filter fun x => decide (Rat.divInt 7 10 ≤ simRatio x w)).map
          fun x => (simRatio x w, x) :=
      List.mem_map.mpr ⟨q', List.mem_filter.mpr ⟨hq', by simpa using hcut'⟩, rfl⟩
    have := hcmax _ hmem'
    rw [← hcx] at this
    exact this

lemma getCloseMatches1_eq_of_max {w qstar : List Char} {qs : List (List Char)}
    (hmem : qstar ∈ qs) (hcut : Rat.divInt 7 10 ≤ simRatio qstar w)
    (hmax : ∀ q' ∈ qs, Rat.divInt 7 10 ≤ simRatio q' w →
      candLt (simRatio qstar w, qstar) (simRatio q' w, q') = false) :
    getCloseMatches1 w qs = some qstar := by
  have hstar : (simRatio qstar w, qstar) ∈
      (qs.filter fun x => decide (Rat.divInt 7 10 ≤ simRatio x w)).map
        fun x => (simRatio x w, x) :=
    List.mem_map.mpr ⟨qstar, List.mem_filter.mpr ⟨hmem, by simpa using hcut⟩, rfl⟩
  cases hm : maxCand ((qs.filter fun x => decide (Rat.divInt 7 10 ≤ simRatio x w)).map
      fun x => (simRatio x w, x)) with
  | none =>
    exfalso
    cases hl : (qs.filter fun x => decide (Rat.divInt 7 10 ≤ simRatio x w)).map
        fun x => (simRatio x w, x) with
    | nil => rw [hl] at hstar; simp at hstar
    | cons y ys => rw [hl] at hm; simp [maxCand] at hm
  | some c =>
    rcases maxCand_spec hm with ⟨hcmem, hcmax⟩
    rcases List.mem_map.mp hcmem with ⟨x, hxf, hcx⟩
    rcases List.mem_filter.mp hxf with ⟨hxqs, hxcut⟩
    have h1 : candLt (simRatio qstar w, qstar) c = false := by
      rw [← hcx]
      exact hmax x hxqs (by simpa using hxcut)
    have h2 : candLt c (simRatio qstar w, qstar) = false := hcmax _ hstar
    have hc : c = (simRatio qstar w, qstar) := (candLt_conn h1 h2).symm
    unfold getCloseMatches1
    rw [hm, hc]
    rfl

/- Stage-1 ranking. -/

lemma sortRevHead {l : List (Nat × Nat)} (hne : l ≠ []) :
    (List.insertionSort PairGe l).headD (0, 0) ∈ l ∧
      ∀ p ∈ l, PairGe ((List.insertionSort PairGe l).headD (0, 0)) p := by
  have hperm := List.perm_insertionSort PairGe l
  have hsorted := List.sorted_insertionSort PairGe l
  cases hs : List.insertionSort PairGe l with
  | nil =>
    rw [hs] at hperm
    exact absurd (hperm.symm.eq_nil) hne
  | cons b rest =>
    rw [hs] at hperm hsorted
    have hb : b ∈ l := hperm.mem_iff.mp (List.mem_cons_self b rest)
    have hrel : ∀ p ∈ rest, PairGe b p := (List.pairwise_cons.mp hsorted).1
    refine ⟨by simpa using hb, ?_⟩
    intro p hp
    rcases List.mem_cons.mp (hperm.mem_iff.mpr hp) with h' | h'
    · rw [List.headD_cons, h']
      exact Or.inr ⟨rfl, le_refl _⟩
    · rw [List.headD_cons]
      exact hrel p h'

lemma mem_overlapScores {un : List Char} {qs : List (List Char)} {p : Nat × Nat} :
    p ∈ overlapScores un qs ↔ ∃ q, qs[p.2]? = some q ∧ p.1 = overlapWith un q := by
  unfold overlapScores
  constructor
  · intro h
    rcases List.mem_map.mp h with ⟨iq, hmem, hp⟩
    have hg : qs[iq.1]? = some iq.2 := by
      have := List.mem_enum_iff_getElem?.mp hmem
      simpa using this
    refine ⟨iq.2, ?_, ?_⟩
    · rw [← hp]
      exact hg
    · rw [← hp]
  · intro ⟨q, hq, hp⟩
    apply List.mem_map.mpr
    refine ⟨(p.2, q), ?_, ?_⟩
    · exact List.mem_enum_iff_getElem?.mpr (by simpa using hq)
    · cases p with
      | mk p1 p2 =>
        simp only at hp ⊢
        rw [hp]

lemma overlapScores_ne_nil {un : List Char} {qs : List (List Char)} (h : qs ≠ []) :
    overlapScores un qs ≠ [] := by
  unfold overlapScores
  intro hc
  rw [List.map_eq_nil_iff] at hc
  have : qs.enum.length = 0 := by rw [hc]; rfl
  rw [List.enum_length] at this
  exact h (List.length_eq_zero.mp this)

lemma stage1Best_spec {un : List Char} {qs : List (List Char)} (h : qs ≠ []) :
    (∃ q, qs[(stage1Best un qs).2]? = some q ∧ (stage1Best un qs).1 = overlapWith un q) ∧
      ∀ i q', qs[i]? = some q' →
        overlapWith un q' ≤ (stage1Best un qs).1 ∧
          (overlapWith un q' = (stage1Best un qs).1 → i ≤ (stage1Best un qs).2) := by
  rcases sortRevHead (@overlapScores_ne_nil un qs h) with ⟨hmem, hmax⟩
  constructor
  · rcases mem_overlapScores.mp hmem with ⟨q, hq, hov⟩
    exact ⟨q, hq, hov⟩
  · intro i q' hq'
    have hpmem : ((overlapWith un q', i) : Nat × Nat) ∈ overlapScores un qs :=
      mem_overlapScores.mpr ⟨q', by simpa using hq', rfl⟩
    have hge : PairGe (stage1Best un qs) (overlapWith un q', i) := hmax _ hpmem
    unfold PairGe at hge
    simp only at hge
    constructor
    · omega
    · intro he
      omega

lemma find_in_kb_gen_cons
    (fb : List Char → List (List Char) → List KBEntry → Option (List Char))
    (user : List Char) (e : KBEntry) (rest : List KBEntry) (cutoff : ℚ) :
    find_in_kb_gen fb user (e :: rest) cutoff =
      (if 0 < (stage1Best (normalize user) ((e :: rest).map fun en => normalize en.question)).1 ∧
          cutoff ≤ stage1Ratio (normalize user) ((e :: rest).map fun en => normalize en.question) then
        some (((e :: rest).getD
          (stage1Best (normalize user) ((e :: rest).map fun en => normalize en.question)).2
          ⟨[], []⟩).answer)
       else fb (normalize user) ((e :: rest).map fun en => normalize en.question) (e :: rest)) := rfl

/- ------------------------------------------------------------------ -/
/- Claims C1-C4. -/

/-- C1 (amended): in stage 1 the selected `(overlap, idx)` pair carries the
maximum distinct-token overlap, but on ties the LATEST record (largest
index) wins, because `sort(reverse=True)` on `(overlap, idx)` pairs orders
equal overlaps by descending index; when the stage-1 thresholds are met the
answer comes from that latest maximal-overlap record. -/
theorem find_in_kb_stage1_latest_max_tiebreak (user : List Char) (kb : List KBEntry)
    (cutoff : ℚ) (hne : kb ≠ []) :
    (∃ q, (kb.map fun e => normalize e.question)[(stage1Best (normalize user)
          (kb.map fun e => normalize e.question)).2]? = some q ∧
        (stage1Best (normalize user) (kb.map fun e => normalize e.question)).1 =
          overlapWith (normalize user) q) ∧
    (∀ i q', (kb.map fun e => normalize e.question)[i]? = some q' →
      overlapWith (normalize user) q' ≤
          (stage1Best (normalize user) (kb.map fun e => normalize e.question)).1 ∧
        (overlapWith (normalize user) q' =
            (stage1Best (normalize user) (kb.map fun e => normalize e.question)).1 →
          i ≤ (stage1Best (normalize user) (kb.map fun e => normalize e.question)).2)) ∧
    (0 < (stage1Best (normalize user) (kb.map fun e => normalize e.question)).1 →
      cutoff ≤ stage1Ratio (normalize user) (kb.map fun e => normalize e.question) →
      find_in_kb user kb cutoff =
        some ((kb.getD (stage1Best (normalize user)
          (kb.map fun e => normalize e.question)).2 ⟨[], []⟩).answer)) := by
  have hqs : (kb.map fun e => normalize e.question) ≠ [] := by
    intro hc
    rw [List.map_eq_nil_iff] at hc
    exact hne hc
  rcases @stage1Best_spec (normalize user) _ hqs with ⟨hex, hall⟩
  refine ⟨hex, hall, ?_⟩
  intro h1 h2
  cases kb with
  | nil => exact absurd rfl hne
  | cons e rest =>
    show find_in_kb_gen difflibFallback user (e :: rest) cutoff = _
    rw [find_in_kb_gen_cons difflibFallback user e rest cutoff, if_pos ⟨h1, h2⟩]

/-- C1 counterexample: two records tie on overlap; the code answers from the
LATER record, while the claim predicts the earliest. -/
theorem find_in_kb_stage1_tie_counterexample :
    overlapWith (normalize ("foo".toList))
        (normalize (⟨"foo".toList, "A1".toList⟩ : KBEntry).question) =
      overlapWith (normalize ("foo".toList))
        (normalize (⟨"foo".toList, "A2".toList⟩ : KBEntry).question) ∧
    find_in_kb ("foo".toList)
        [⟨"foo".toList, "A1".toList⟩, ⟨"foo".toList, "A2".toList⟩] (Rat.divInt 3 5) =
      some ("A2".toList) ∧
    "A2".toList ≠ "A1".toList := by
  refine ⟨by decide, by decide, by decide⟩

theorem find_in_kb_stage1_latest_max_tiebreak_witness :
    ([⟨"foo".toList, "A1".toList⟩, ⟨"foo".toList, "A2".toList⟩] : List KBEntry) ≠ [] ∧
    find_in_kb ("foo".toList)
        [⟨"foo".toList, "A1".toList⟩, ⟨"foo".toList, "A2".toList⟩] (Rat.divInt 3 5) =
      some ("A2".toList) :=
  ⟨by decide,
    (find_in_kb_stage1_latest_max_tiebreak ("foo".toList)
      [⟨"foo".toList, "A1".toList⟩, ⟨"foo".toList, "A2".toList⟩] (Rat.divInt 3 5)
      (by decide)).2.2 (by decide) (by decide)⟩

/-- C2: when the stage-1 winner has positive overlap and its overlap ratio
reaches the cutoff, `find_in_kb` returns that record's answer whatever the
stage-2 fallback would say — stage 2 is never consulted. -/
theorem find_in_kb_stage1_skips_stage2 (user : List Char) (kb : List KBEntry)
    (cutoff : ℚ) (hne : kb ≠ [])
    (h1 : 0 < (stage1Best (normalize user) (kb.map fun e => normalize e.question)).1)
    (h2 : cutoff ≤ stage1Ratio (normalize user) (kb.map fun e => normalize e.question)) :
    (∀ fb, find_in_kb_gen fb user kb cutoff =
      some ((kb.getD (stage1Best (normalize user)
        (kb.map fun e => normalize e.question)).2 ⟨[], []⟩).answer)) ∧
    find_in_kb user kb cutoff =
      some ((kb.getD (stage1Best (normalize user)
        (kb.map fun e => normalize e.question)).2 ⟨[], []⟩).answer) := by
  cases kb with
  | nil => exact absurd rfl hne
  | cons e rest =>
    constructor
    · intro fb
      rw [find_in_kb_gen_cons fb user e rest cutoff, if_pos ⟨h1, h2⟩]
    · show find_in_kb_gen difflibFallback user (e :: rest) cutoff = _
      rw [find_in_kb_gen_cons difflibFallback user e rest cutoff, if_pos ⟨h1, h2⟩]

theorem find_in_kb_stage1_skips_stage2_witness :
    ([⟨"foo".toList, "A1".toList⟩, ⟨"foo".toList, "A2".toList⟩] : List KBEntry) ≠ [] ∧
    0 < (stage1Best (normalize ("foo".toList))
      (([⟨"foo".toList, "A1".toList⟩, ⟨"foo".toList, "A2".toList⟩] : List KBEntry).map
        fun e => normalize e.question)).1 ∧
    find_in_kb ("foo".toList)
        [⟨"foo".toList, "A1".toList⟩, ⟨"foo".toList, "A2".toList⟩] (Rat.divInt 3 5) =
      some ("A2".toList) :=
  ⟨by decide, by decide,
    (find_in_kb_stage1_skips_stage2 ("foo".toList)
      [⟨"foo".toList, "A1".toList⟩, ⟨"foo".toList, "A2".toList⟩] (Rat.divInt 3 5)
      (by decide) (by decide) (by decide)).2⟩

/-- C4: an empty record collection yields `none` immediately, and when both
stages stay below their thresholds the result is also `none` — a normal
result of the total function, not an exception. -/
theorem find_in_kb_none_on_empty_or_no_match (user : List Char) (kb : List KBEntry)
    (cutoff : ℚ) :
    find_in_kb user [] cutoff = none ∧
    (kb ≠ [] →
      ¬(0 < (stage1Best (normalize user) (kb.map fun e => normalize e.question)).1 ∧
        cutoff ≤ stage1Ratio (normalize user) (kb.map fun e => normalize e.question)) →
      (∀ q ∈ kb.map fun e => normalize e.question,
        simRatio q (normalize user) < Rat.divInt 7 10) →
      find_in_kb user kb cutoff = none) := by
  refine ⟨rfl, ?_⟩
  intro hne hno1 hbelow
  cases kb with
  | nil => exact absurd rfl hne
  | cons e rest =>
    show find_in_kb_gen difflibFallback user (e :: rest) cutoff = none
    rw [find_in_kb_gen_cons difflibFallback user e rest cutoff, if_neg hno1]
    unfold difflibFallback
    rw [getCloseMatches1_none]
    intro q hq
    exact not_le.mpr (hbelow q hq)

set_option maxRecDepth 8000 in
theorem find_in_kb_none_on_empty_or_no_match_witness :
    ([⟨"hello world".toList, "A".toList⟩] : List KBEntry) ≠ [] ∧
    find_in_kb ("zzz".toList) [⟨"hello world".toList, "A".toList⟩] (Rat.divInt 3 5) = none :=
  ⟨by decide,
    (find_in_kb_none_on_empty_or_no_match ("zzz".toList)
      [⟨"hello world".toList, "A".toList⟩] (Rat.divInt 3 5)).2
      (by decide) (by decide) (by decide)⟩

/-- C3 (amended): in the stage-2 fallback, if no normalized question reaches
similarity 0.7 the result is `none`; otherwise the chosen question is the
greatest `(similarity, string)` pair — so a similarity tie between DISTINCT
strings resolves to the lexicographically greatest question, not the first
occurrence — and the answer comes from the EARLIEST record whose normalized
question equals that chosen string. -/
theorem find_in_kb_stage2_lex_tiebreak (user : List Char) (kb : List KBEntry)
    (cutoff : ℚ) (hne : kb ≠ [])
    (hno1 : ¬(0 < (stage1Best (normalize user) (kb.map fun e => normalize e.question)).1 ∧
      cutoff ≤ stage1Ratio (normalize user) (kb.map fun e => normalize e.question))) :
    ((∀ q ∈ kb.map fun e => normalize e.question,
        simRatio q (normalize user) < Rat.divInt 7 10) →
      find_in_kb user kb cutoff = none) ∧
    (∀ qstar, qstar ∈ (kb.map fun e => normalize e.question) →
      Rat.divInt 7 10 ≤ simRatio qstar (normalize user) →
      (∀ q' ∈ kb.map fun e => normalize e.question,
        Rat.divInt 7 10 ≤ simRatio q' (normalize user) →
        candLt (simRatio qstar (normalize user), qstar)
          (simRatio q' (normalize user), q') = false) →
      find_in_kb user kb cutoff =
        some ((kb.getD ((kb.map fun e => normalize e.question).indexOf qstar)
          ⟨[], []⟩).answer) ∧
      (kb.map fun e => normalize e.question).getD
        ((kb.map fun e => normalize e.question).indexOf qstar) [] = qstar ∧
      ∀ j < (kb.map fun e => normalize e.question).indexOf qstar,
        (kb.map fun e => normalize e.question).getD j [] ≠ qstar) := by
  cases kb with
  | nil => exact absurd rfl hne
  | cons e rest =>
    constructor
    · intro hbelow
      show find_in_kb_gen difflibFallback user (e :: rest) cutoff = none
      rw [find_in_kb_gen_cons difflibFallback user e rest cutoff, if_neg hno1]
      unfold difflibFallback
      rw [getCloseMatches1_none]
      intro q hq
      exact not_le.mpr (hbelow q hq)
    · intro qstar hmem hcut hmax
      have hfound := getCloseMatches1_eq_of_max hmem hcut hmax
      rcases indexOf_spec _ qstar hmem with ⟨hidx1, hidx2⟩
      refine ⟨?_, hidx1, hidx2⟩
      show find_in_kb_gen difflibFallback user (e :: rest) cutoff = _
      rw [find_in_kb_gen_cons difflibFallback user e rest cutoff, if_neg hno1]
      unfold difflibFallback
      rw [hfound]

/-- C3 counterexample: "abcx" and "abcy" tie on similarity to "abcd"
(both 3/4 ≥ 0.7, stage 1 finds no overlap), yet the answer comes from the
LATER record "abcy" — the lexicographically greater string — not from the
first occurrence. -/
theorem find_in_kb_stage2_tie_counterexample :
    simRatio ("abcx".toList) ("abcd".toList) = simRatio ("abcy".toList) ("abcd".toList) ∧
    Rat.divInt 7 10 ≤ simRatio ("abcx".toList) ("abcd".toList) ∧
    find_in_kb ("abcd".toList)
        [⟨"abcx".toList, "A1".toList⟩, ⟨"abcy".toList, "A2".toList⟩] (Rat.divInt 3 5) =
      some ("A2".toList) ∧
    "A2".toList ≠ "A1".toList := by
  refine ⟨by decide, by decide, by decide, by decide⟩

theorem find_in_kb_stage2_lex_tiebreak_witness :
    ([⟨"abcx".toList, "A1".toList⟩, ⟨"abcy".toList, "A2".toList⟩] : List KBEntry) ≠ [] ∧
    ("abcy".toList ∈
      (([⟨"abcx".toList, "A1".toList⟩, ⟨"abcy".toList, "A2".toList⟩] : List KBEntry).map
        fun e => normalize e.question)) ∧
    find_in_kb ("abcd".toList)
        [⟨"abcx".toList, "A1".toList⟩, ⟨"abcy".toList, "A2".toList⟩] (Rat.divInt 3 5) =
      some ("A2".toList) :=
  ⟨by decide, by decide,
    ((find_in_kb_stage2_lex_tiebreak ("abcd".toList)
      [⟨"abcx".toList, "A1".toList⟩, ⟨"abcy".toList, "A2".toList⟩] (Rat.divInt 3 5)
      (by decide) (by decide)).2 ("abcy".toList) (by decide) (by decide) (by decide)).1⟩

/- ------------------------------------------------------------------ -/
/- Witnesses for the remaining claim theorems at concrete inputs. -/

theorem detect_sentiment_spec_witness :
    (detect_sentiment ("good good bad".toList)).pos =
      (tokenize ("good good bad".toList)).countP (fun t => t ∈ POS_WORDS) :=
  (detect_sentiment_spec ("good good bad".toList)).1

theorem detect_emotions_spec_witness :
    ("joy", ["happy".toList, "joy".toList, "delighted".toList, "excited".toList,
      "glad".toList, "pleased".toList, "yay".toList, "awesome".toList]) ∈ EMOTION_KEYWORDS ∧
    (detect_emotions ("happy happy".toList)).lookup "joy" = some 1 :=
  ⟨by decide,
    (detect_emotions_spec ("happy happy".toList)).1 "joy"
      ["happy".toList, "joy".toList, "delighted".toList, "excited".toList,
       "glad".toList, "pleased".toList, "yay".toList, "awesome".toList] (by decide)⟩

theorem normalize_wellformed_and_idempotent_witness :
    (normalize ("  Hello,  WORLD!! ".toList)).head? = some 'h' ∧ 'h' ≠ ' ' :=
  ⟨by decide,
    (normalize_wellformed_and_idempotent ("  Hello,  WORLD!! ".toList)).2.2.1 'h' (by decide)⟩

theorem match_intent_first_rule_spec_witness :
    match_intent ("Hello there".toList) = some "greeting" ∧
    match_intent ("xyz".toList) = none :=
  ⟨(match_intent_first_rule_spec ("Hello there".toList)).2.2.1,
   (match_intent_first_rule_spec ("xyz".toList)).2.2.2⟩

theorem intent_response_spec_witness :
    INTENTS.lookup "nope" = none ∧
    intent_response "nope" 0 = none ∧
    (∃ resp, intent_response "greeting" 0 = some resp ∧
      resp ∈ ["Hello! How can I help you today?", "Hi there — what can I do for you?",
        "Hey! Ask me anything."]) :=
  ⟨by decide,
   intent_response_spec.2 "nope" (by decide) 0,
   intent_response_spec.1 "greeting"
     ⟨[⟨"hello".toList, true⟩, ⟨"hi".toList, true⟩, ⟨"hey".toList, true⟩,
       ⟨"good morning".toList, true⟩, ⟨"good evening".toList, true⟩],
      ["Hello! How can I help you today?", "Hi there — what can I do for you?",
       "Hey! Ask me anything."]⟩ (by decide) 0⟩

theorem tokenize_tokens_word_chars_yay_dead_witness :
    ("hello".toList ∈ tokenize ("Hello world".toList)) ∧
    "hello".toList ≠ "yay!".toList :=
  ⟨by decide,
    (tokenize_tokens_word_chars_yay_dead ("Hello world".toList)).2.1 ("hello".toList)
      (by decide)⟩

end Chatbot
